import Mathlib

/-!
Verification of the mimir compressed append log against its specification.

The repository's visible source is `setup.py`, which builds the C extension
`mimir.gzlog` from `gzlog/gzlog.pyx`.  The append-log core itself (frame
codec, recovery scanner, append log) is not in the visible source tree, so
it is modelled here from the specification; `setup.py` is embedded directly.

Bytes are modelled as natural numbers; byte buffers as `List Nat`.
All definitions are executable.
-/

set_option autoImplicit false

namespace Mimir

/-! ## Frame Codec (modelled from the spec) -/

/-- Modelled from the spec: the 32-bit cyclic checksum of a raw payload
("each frame's raw payload is checksummed (e.g. a 32-bit cyclic checksum)
and verified on decode").  The concrete checksum function of the missing
`gzlog` code is unknown; any deterministic 32-bit rolling checksum is
faithful to the spec's words, so a multiplicative rolling checksum reduced
mod 2^32 is used. -/
def checksum (p : List Nat) : Nat :=
  p.foldl (fun a b => (a * 31 + b + 1) % 4294967296) 0

/-- Modelled from the spec: a 32-bit little-endian field of the frame header
(used for the raw payload length and for the checksum). -/
def le32 (n : Nat) : List Nat :=
  [n % 256, n / 256 % 256, n / 65536 % 256, n / 16777216 % 256]

/-- Read a 32-bit little-endian field from the front of a byte buffer;
buffers shorter than four bytes give 0 (such buffers never reach this read
in `parseFrame`, which checks lengths first). -/
def de32 (b : List Nat) : Nat :=
  match b with
  | b0 :: b1 :: b2 :: b3 :: _ => b0 + 256 * b1 + 65536 * b2 + 16777216 * b3
  | _ => 0

/-- Modelled from the spec: the in-memory continuation context of the
compressor between appends.  The design "flushes a restart boundary after
every committed append", so every frame is independently decodable and the
carried state has no effect on the bytes of later frames; it is therefore
a unit value in this model. -/
abbrev CompState := Unit

/-- Modelled from the spec: `encode_frame(payload, compressor_state) ->
(frame_bytes, new_compressor_state)`.  A frame carries the raw payload
length, a checksum of the raw payload, and the payload compressed with a
restart/flush boundary so it is independently decompressible.  The
compression transform of the missing `gzlog` code (zlib) is modelled as the
identity coding: the claims under check concern framing, checksums and
recovery, not compressed size. -/
def encode_frame (p : List Nat) (st : CompState) : List Nat × CompState :=
  (le32 p.length ++ le32 (checksum p) ++ p, st)

/-- The bytes of the frame encoding a payload. -/
def encodeFrame (p : List Nat) : List Nat :=
  (encode_frame p ()).1

/-- Modelled from the spec: parse one frame from the front of a buffer.
Returns the raw payload and the number of bytes consumed, or `none` when
the buffer does not begin with a complete frame whose payload checksum
matches ("a mismatch is treated identically to a truncated frame"). -/
def parseFrame (b : List Nat) : Option (List Nat × Nat) :=
  if 8 ≤ b.length then
    let n := de32 b
    let ck := de32 (b.drop 4)
    let rest := b.drop 8
    if n ≤ rest.length then
      let payload := rest.take n
      if checksum payload = ck then some (payload, 8 + n) else none
    else none
  else none

/-- Fuelled frame-by-frame decoding loop.  Each successful parse consumes at
least eight bytes, so fuel equal to the buffer length suffices. -/
def decodeFromF : Nat → List Nat → List (List Nat) × Nat
  | 0, _ => ([], 0)
  | f + 1, b =>
    match parseFrame b with
    | none => ([], 0)
    | some (p, k) =>
      let r := decodeFromF f (b.drop k)
      (p :: r.1, k + r.2)

/-- Modelled from the spec: `decode_stream(bytes)` produces the finite
sequence of raw payloads together with the byte offset of the valid
end-of-stream — "on reaching a byte offset that does not parse as a complete
frame, stops and reports the offset as the valid end-of-stream (this return
value, not an exception, ...)".  It is a total function: failure is
signalled through the returned offset, never by an exception. -/
def decode_stream (b : List Nat) : List (List Nat) × Nat :=
  decodeFromF b.length b

/-! ## Recovery Scanner and Append Log (modelled from the spec) -/

/-- Modelled from the spec: `scan(file) -> last_valid_offset`, driving
`decode_stream` from offset 0. -/
def scan (b : List Nat) : Nat :=
  (decode_stream b).2

/-- Modelled from the spec: the open append log.  It owns the file contents
and the in-memory copy of the commit marker (`committed_length`); the
trivial compressor continuation is not stored since every committed frame
is self-contained. -/
structure Log where
  file : List Nat
  committed_length : Nat
deriving DecidableEq, Repr

/-- Modelled from the spec: `open(path)` — opens or creates the file, runs
the Recovery Scanner, truncates to `last_valid_offset`, and transitions to
`Open`.  The disk contents stand in for the path; a missing file is an
empty buffer. -/
def openLog (disk : List Nat) : Log :=
  ⟨disk.take (scan disk), scan disk⟩

/-- Modelled from the spec: `append(payload)` — produces a frame, writes it
durably at the end of the file, then updates the commit marker.  Transient
I/O faults and internal codec faults are environmental and cannot occur in
this pure model, so the append always commits. -/
def append (l : Log) (p : List Nat) : Log :=
  ⟨l.file ++ encodeFrame p, l.committed_length + (encodeFrame p).length⟩

/-- Number of bytes of file growth caused by one append: the I/O work the
call performs, measured on the model's disk. -/
def appendBytesWritten (l : Log) (p : List Nat) : Nat :=
  (append l p).file.length - l.file.length

/-- Modelled from the spec: `read_all()` re-runs decoding from offset 0 and
yields the finite sequence of raw payloads. -/
def read_all (l : Log) : List (List Nat) :=
  (decode_stream l.file).1

/-- Modelled from the spec: `close()` releases the handle; every committed
frame already carries its restart boundary, so no trailer bytes are needed
to make the file independently valid.  Returns the persisted disk
contents. -/
def close (l : Log) : List Nat :=
  l.file

/-- Append every payload of a list in order. -/
def appendEach (l : Log) : List (List Nat) → Log
  | [] => l
  | p :: ps => appendEach (append l p) ps

/-- The on-disk serialization of a payload sequence: the concatenation of
its frames. -/
def serialize : List (List Nat) → List Nat
  | [] => []
  | p :: ps => encodeFrame p ++ serialize ps

/-- One open/close cycle on the disk contents, with no append in between. -/
def openClose (disk : List Nat) : List Nat :=
  close (openLog disk)

/-- n open/close cycles on the disk contents. -/
def openCloseN : Nat → List Nat → List Nat
  | 0, d => d
  | n + 1, d => openCloseN n (openClose d)

end Mimir

namespace Setup

/-! ## Embedding of `src/setup.py` -/

/-- A `setuptools.Extension` as constructed in `setup.py`: module name,
source files, linked libraries. -/
structure Extension where
  name : String
  sources : List String
  libraries : List String
deriving DecidableEq, Repr

/-- `Cython.Build.cythonize`: compiles the `.pyx` sources of each extension
to C.  Source compilation is outside the model; the extension list itself
(name, sources, libraries) passes through unchanged. -/
def cythonize (exts : List Extension) : List Extension :=
  exts

/-- The argument record received by the `setup(...)` call in `setup.py`. -/
structure SetupArgs where
  name : String
  version : String
  description : String
  long_description : String
  url : String
  author : String
  author_email : String
  license : String
  classifiers : List String
  keywords : String
  packages : List String
  setup_requires : List String
  install_requires : List String
  ext_modules : List Extension
deriving DecidableEq, Repr

/-- The body of `src/setup.py`.  The input is the result of
`io.open(path.join(here, 'README.rst')).read()`: `some s` when the file in
the script's own directory is readable with contents `s`, `none` when the
open raises.  The script reads it unconditionally before calling `setup`,
so a raised exception propagates and `setup` is never invoked (modelled as
`Except.error`); otherwise `setup` receives the literal arguments of lines
11-39. -/
def setup_script (readme : Option String) : Except String SetupArgs :=
  match readme with
  | none => Except.error ("IOError: README.rst")
  | some long_description =>
    Except.ok
      ⟨"mimir",
       "0.1.dev1",
       "A mini-framework for logging JSON-compatible objects",
       long_description,
       "https://github.com/bartvm/mimir",
       "Bart van Merriënboer",
       "bart.vanmerrienboer@gmail.com",
       "MIT",
       ["Development Status :: 3 - Alpha",
        "Intended Audience :: Developers",
        "Topic :: Utilities",
        "Topic :: Scientific/Engineering",
        "License :: OSI Approved :: MIT License",
        "Programming Language :: Python :: 2",
        "Programming Language :: Python :: 2.7",
        "Programming Language :: Python :: 3",
        "Programming Language :: Python :: 3.5"],
       "logging machine learning",
       ["mimir"],
       ["Cython"],
       ["pyzmq", "simplejson", "six"],
       cythonize [⟨"mimir.gzlog", ["gzlog/gzlog.pyx"], ["z"]⟩]⟩

end Setup

namespace Mimir

/-! ## Basic codec lemmas -/

theorem checksum_step_lt (a b : Nat) : (a * 31 + b + 1) % 4294967296 < 4294967296 :=
  Nat.mod_lt _ (by omega)

theorem checksum_foldl_lt (p : List Nat) (a : Nat) (ha : a < 4294967296) :
    p.foldl (fun a b => (a * 31 + b + 1) % 4294967296) a < 4294967296 := by
  induction p generalizing a with
  | nil => exact ha
  | cons x xs ih => exact ih _ (checksum_step_lt a x)

theorem checksum_lt (p : List Nat) : checksum p < 4294967296 :=
  checksum_foldl_lt p 0 (by omega)

theorem de32_le32_append (n : Nat) (rest : List Nat) (h : n < 4294967296) :
    de32 (le32 n ++ rest) = n := by
  simp only [le32, List.cons_append, List.nil_append, de32]
  omega

theorem drop4_le32_append (n : Nat) (rest : List Nat) : (le32 n ++ rest).drop 4 = rest := by
  simp [le32]

theorem length_le32 (n : Nat) : (le32 n).length = 4 := by
  simp [le32]

theorem encodeFrame_eq (p : List Nat) :
    encodeFrame p = le32 p.length ++ (le32 (checksum p) ++ p) := by
  simp [encodeFrame, encode_frame]

theorem length_encodeFrame (p : List Nat) : (encodeFrame p).length = 8 + p.length := by
  simp [encodeFrame_eq, length_le32]; omega

theorem parse_encode (p rest : List Nat) (hp : p.length < 4294967296) :
    parseFrame (encodeFrame p ++ rest) = some (p, 8 + p.length) := by
  have hb : encodeFrame p ++ rest = le32 p.length ++ (le32 (checksum p) ++ (p ++ rest)) := by
    simp [encodeFrame_eq]
  rw [hb]
  have hlen : (le32 p.length ++ (le32 (checksum p) ++ (p ++ rest))).length =
      8 + p.length + rest.length := by
    simp [length_le32]; omega
  have hn : de32 (le32 p.length ++ (le32 (checksum p) ++ (p ++ rest))) = p.length :=
    de32_le32_append _ _ hp
  have hd4 : (le32 p.length ++ (le32 (checksum p) ++ (p ++ rest))).drop 4 =
      le32 (checksum p) ++ (p ++ rest) := drop4_le32_append _ _
  have hck : de32 (le32 (checksum p) ++ (p ++ rest)) = checksum p :=
    de32_le32_append _ _ (checksum_lt p)
  have hd8 : (le32 p.length ++ (le32 (checksum p) ++ (p ++ rest))).drop 8 = p ++ rest := by
    have : (8 : Nat) = 4 + 4 := rfl
    rw [this, ← List.drop_drop, drop4_le32_append, drop4_le32_append]
  have htake : (p ++ rest).take p.length = p := List.take_left p rest
  rw [parseFrame]
  rw [if_pos (by rw [hlen]; omega)]
  rw [hn, hd4, hck, hd8]
  rw [if_pos (by simp)]
  rw [htake, if_pos rfl]

end Mimir


namespace Mimir

/-! ## Decoding lemmas -/

theorem de32_append_of_le (x e : List Nat) (h : 4 ≤ x.length) :
    de32 (x ++ e) = de32 x := by
  match x, h with
  | a :: b :: c :: d :: t, _ => rfl

/-- Characterization of a successful single-frame parse. -/
theorem parse_some_iff (b p : List Nat) (k : Nat) :
    parseFrame b = some (p, k) ↔
      8 ≤ b.length ∧ k = 8 + de32 b ∧ de32 b ≤ b.length - 8 ∧
        p = (b.drop 8).take (de32 b) ∧ checksum p = de32 (b.drop 4) := by
  have hdl : (b.drop 8).length = b.length - 8 := List.length_drop 8 b
  unfold parseFrame
  split
  case isTrue h8 =>
    dsimp only
    split
    case isTrue hn =>
      split
      case isTrue hck =>
        simp only [Option.some.injEq, Prod.mk.injEq]
        constructor
        · rintro ⟨hp, hk⟩
          exact ⟨h8, hk.symm, by omega, hp.symm, hp ▸ hck⟩
        · rintro ⟨-, hk, -, hp, -⟩
          exact ⟨hp.symm, hk.symm⟩
      case isFalse hck =>
        refine iff_of_false (by simp) ?_
        rintro ⟨-, -, -, hp, hcp⟩
        exact absurd (hp ▸ hcp) hck
    case isFalse hn =>
      refine iff_of_false (by simp) ?_
      rintro ⟨-, -, hle, -, -⟩
      omega
  case isFalse h8 =>
    simp [h8]

/-- A successful parse consumes between eight bytes and the whole buffer. -/
theorem parse_some_facts (b p : List Nat) (k : Nat)
    (h : parseFrame b = some (p, k)) :
    8 ≤ k ∧ k ≤ b.length ∧ k = 8 + p.length := by
  obtain ⟨h8, hk, hn, hp, -⟩ := (parse_some_iff b p k).mp h
  have : p.length = de32 b := by
    rw [hp, List.length_take, List.length_drop]; omega
  omega

/-- A parse that consumes exactly the front block `x` gives the same result
however the buffer continues after `x`. -/
theorem parse_frontal (x e₁ e₂ p : List Nat)
    (h : parseFrame (x ++ e₁) = some (p, x.length)) :
    parseFrame (x ++ e₂) = some (p, x.length) := by
  obtain ⟨h8, hk, hn, hp, hck⟩ := (parse_some_iff _ p _).mp h
  have hlen : (x ++ e₁).length = x.length + e₁.length := List.length_append x e₁
  have hx8 : 8 ≤ x.length := by
    have := parse_some_facts _ _ _ h
    omega
  have hde1 : de32 (x ++ e₁) = de32 x := de32_append_of_le x e₁ (by omega)
  have hde2 : de32 (x ++ e₂) = de32 x := de32_append_of_le x e₂ (by omega)
  have hnx : de32 x = x.length - 8 := by omega
  have hd8 : ∀ e : List Nat, (x ++ e).drop 8 = x.drop 8 ++ e := fun e =>
    List.drop_append_of_le_length (by omega)
  have hd4 : ∀ e : List Nat, (x ++ e).drop 4 = x.drop 4 ++ e := fun e =>
    List.drop_append_of_le_length (by omega)
  have hxdl : (x.drop 8).length = x.length - 8 := List.length_drop 8 x
  have htk : ∀ e : List Nat, ((x ++ e).drop 8).take (de32 x) = x.drop 8 := by
    intro e
    rw [hd8 e, hnx, ← hxdl, List.take_left]
  have hp' : p = x.drop 8 := by rw [hp, hde1, htk e₁]
  have hck4 : ∀ e : List Nat, de32 ((x ++ e).drop 4) = de32 (x.drop 4) := by
    intro e
    rw [hd4 e]
    exact de32_append_of_le _ e (by rw [List.length_drop]; omega)
  refine (parse_some_iff _ p _).mpr ⟨?_, ?_, ?_, ?_, ?_⟩
  · simp only [List.length_append]; omega
  · rw [hde2]; omega
  · rw [hde2]; simp only [List.length_append]; omega
  · rw [hde2, htk e₂, hp']
  · rw [hck4 e₂, ← hck4 e₁, ← hck]

end Mimir

namespace Mimir

/-! ## Stream-level decoding lemmas -/

theorem parseFrame_nil : parseFrame [] = none := rfl

theorem decodeFromF_none {b : List Nat} (f : Nat) (h : parseFrame b = none) :
    decodeFromF f b = ([], 0) := by
  cases f with
  | zero => rfl
  | succ f => simp [decodeFromF, h]

theorem decodeFromF_some {b p : List Nat} {k : Nat} (f : Nat)
    (h : parseFrame b = some (p, k)) :
    decodeFromF (f + 1) b =
      (p :: (decodeFromF f (b.drop k)).1, k + (decodeFromF f (b.drop k)).2) := by
  simp [decodeFromF, h]

theorem decodeFromF_congr : ∀ (f₁ f₂ : Nat) (b : List Nat),
    b.length ≤ f₁ → b.length ≤ f₂ → decodeFromF f₁ b = decodeFromF f₂ b := by
  intro f₁
  induction f₁ with
  | zero =>
    intro f₂ b h1 _
    have hb : b = [] := List.length_eq_zero.mp (by omega)
    subst hb
    rw [decodeFromF_none 0 parseFrame_nil, decodeFromF_none f₂ parseFrame_nil]
  | succ f₁ ih =>
    intro f₂ b h1 h2
    cases hp : parseFrame b with
    | none => rw [decodeFromF_none _ hp, decodeFromF_none _ hp]
    | some pk =>
      obtain ⟨p, k⟩ := pk
      obtain ⟨h8, hkb, -⟩ := parse_some_facts b p k hp
      cases f₂ with
      | zero => omega
      | succ f₂ =>
        rw [decodeFromF_some _ hp, decodeFromF_some _ hp]
        have hd : (b.drop k).length = b.length - k := List.length_drop k b
        rw [ih f₂ (b.drop k) (by omega) (by omega)]

theorem decodeFromF_eq_decode_stream {f : Nat} {b : List Nat} (h : b.length ≤ f) :
    decodeFromF f b = decode_stream b :=
  decodeFromF_congr f b.length b h le_rfl

theorem decode_stream_none {b : List Nat} (h : parseFrame b = none) :
    decode_stream b = ([], 0) :=
  decodeFromF_none b.length h

theorem decode_stream_some {b p : List Nat} {k : Nat} (h : parseFrame b = some (p, k)) :
    decode_stream b =
      (p :: (decode_stream (b.drop k)).1, k + (decode_stream (b.drop k)).2) := by
  obtain ⟨h8, hkb, -⟩ := parse_some_facts b p k h
  have hlen : b.length = (b.length - 1) + 1 := by omega
  have hd : (b.drop k).length = b.length - k := List.length_drop k b
  rw [decode_stream, hlen, decodeFromF_some _ h,
    decodeFromF_eq_decode_stream (f := b.length - 1) (by omega)]

theorem serialize_append (P Q : List (List Nat)) :
    serialize (P ++ Q) = serialize P ++ serialize Q := by
  induction P with
  | nil => rfl
  | cons p P ih => simp [serialize, ih]

theorem drop_encodeFrame (p X : List Nat) :
    (encodeFrame p ++ X).drop (8 + p.length) = X := by
  rw [← length_encodeFrame p, List.drop_left]

/-- Decoding the serialization of committed payloads followed by any bytes
that do not begin a valid frame yields exactly those payloads, with the
valid end-of-stream right at the end of the committed data. -/
theorem decode_serialize_append (P : List (List Nat)) (g : List Nat)
    (hP : ∀ p ∈ P, p.length < 4294967296) (hg : parseFrame g = none) :
    decode_stream (serialize P ++ g) = (P, (serialize P).length) := by
  induction P with
  | nil =>
    simp only [serialize, List.nil_append]
    rw [decode_stream_none hg]
    rfl
  | cons p P ih =>
    have hp : p.length < 4294967296 := hP p (by simp)
    have hP' : ∀ q ∈ P, q.length < 4294967296 := fun q hq => hP q (by simp [hq])
    have hser : serialize (p :: P) ++ g = encodeFrame p ++ (serialize P ++ g) := by
      simp [serialize]
    rw [hser, decode_stream_some (parse_encode p (serialize P ++ g) hp),
      drop_encodeFrame, ih hP']
    simp only [serialize, List.length_append, length_encodeFrame]

/-- Decoding a fully committed file consumes it entirely. -/
theorem decode_serialize (P : List (List Nat)) (hP : ∀ p ∈ P, p.length < 4294967296) :
    decode_stream (serialize P) = (P, (serialize P).length) := by
  have := decode_serialize_append P [] hP parseFrame_nil
  simpa using this

end Mimir

namespace Mimir

/-! ## Truncation stability of the recovery scan -/

theorem trunc_stable_fueled : ∀ (f : Nat) (b : List Nat), b.length ≤ f →
    (decodeFromF f b).2 ≤ b.length ∧
    decodeFromF f (b.take (decodeFromF f b).2) = decodeFromF f b ∧
    parseFrame (b.drop (decodeFromF f b).2) = none := by
  intro f
  induction f with
  | zero =>
    intro b hlen
    have hb : b = [] := List.length_eq_zero.mp (by omega)
    subst hb
    exact ⟨le_rfl, rfl, parseFrame_nil⟩
  | succ f ih =>
    intro b hlen
    cases hp : parseFrame b with
    | none =>
      rw [decodeFromF_none _ hp]
      refine ⟨Nat.zero_le _, ?_, ?_⟩
      · simpa using decodeFromF_none (f + 1) parseFrame_nil
      · simpa using hp
    | some pk =>
      obtain ⟨p, k⟩ := pk
      obtain ⟨h8, hkb, -⟩ := parse_some_facts b p k hp
      have hdl : (b.drop k).length = b.length - k := List.length_drop k b
      obtain ⟨ih1, ih2, ih3⟩ := ih (b.drop k) (by omega)
      rw [decodeFromF_some f hp]
      simp only
      refine ⟨by omega, ?_, ?_⟩
      · have hxlen : (b.take k).length = k := by rw [List.length_take]; omega
        have h1 : parseFrame (b.take k ++ b.drop k) = some (p, (b.take k).length) := by
          rw [List.take_append_drop, hxlen]; exact hp
        have hfront := parse_frontal (b.take k) (b.drop k)
          ((b.drop k).take (decodeFromF f (b.drop k)).2) p h1
        rw [hxlen] at hfront
        have hdropped : (b.take k ++ (b.drop k).take (decodeFromF f (b.drop k)).2).drop k =
            (b.drop k).take (decodeFromF f (b.drop k)).2 := by
          rw [List.drop_append_of_le_length (le_of_eq hxlen.symm),
            List.drop_eq_nil_of_le (le_of_eq hxlen), List.nil_append]
        rw [List.take_add, decodeFromF_some f hfront, hdropped, ih2]
      · rw [← List.drop_drop]
        exact ih3

/-- Truncation stability at the `decode_stream` level: truncating a file to
the offset the scan reports preserves the decoded payloads and the offset,
and no further frame parses beyond that offset. -/
theorem trunc_stable (b : List Nat) :
    (decode_stream b).2 ≤ b.length ∧
    decode_stream (b.take (decode_stream b).2) = decode_stream b ∧
    parseFrame (b.drop (decode_stream b).2) = none := by
  obtain ⟨h1, h2, h3⟩ := trunc_stable_fueled b.length b le_rfl
  refine ⟨h1, ?_, h3⟩
  have hlt : (b.take (decode_stream b).2).length ≤ b.length := by
    rw [List.length_take]; omega
  rw [← decodeFromF_eq_decode_stream (f := b.length) hlt]
  exact h2

end Mimir

namespace Mimir

/-! ## Recovery Scanner and Append Log lemmas -/

theorem parse_none_of_short (g : List Nat) (h : g.length < 8) : parseFrame g = none := by
  unfold parseFrame
  rw [if_neg (by omega)]

/-- A strict proper front of a committed frame never parses as a complete
frame: either its header is incomplete or its declared payload length
exceeds the bytes present. -/
theorem parse_incomplete (q g t : List Nat) (hq : q.length < 4294967296)
    (ht : g ++ t = encodeFrame q) (hne : t ≠ []) : parseFrame g = none := by
  have hlen : g.length + t.length = 8 + q.length := by
    have := congrArg List.length ht
    simpa [length_encodeFrame] using this
  have htpos : 1 ≤ t.length := by
    cases t with
    | nil => exact absurd rfl hne
    | cons a t => simp
  by_cases h8 : 8 ≤ g.length
  · cases hpg : parseFrame g with
    | none => rfl
    | some pk =>
      obtain ⟨p, k⟩ := pk
      obtain ⟨-, -, hn, -, -⟩ := (parse_some_iff g p k).mp hpg
      have hde : de32 g = q.length := by
        rw [← de32_append_of_le g t (by omega), ht, encodeFrame_eq]
        exact de32_le32_append _ _ hq
      omega
  · exact parse_none_of_short g (by omega)

theorem scan_nil : scan [] = 0 := rfl

theorem openLog_file (b : List Nat) : (openLog b).file = b.take (scan b) := rfl

theorem decode_stream_openLog (b : List Nat) :
    decode_stream (openLog b).file = decode_stream b :=
  (trunc_stable b).2.1

theorem read_all_openLog (b : List Nat) : read_all (openLog b) = (decode_stream b).1 := by
  show (decode_stream (openLog b).file).1 = (decode_stream b).1
  rw [decode_stream_openLog]

theorem scan_openClose (b : List Nat) : scan (openClose b) = scan b := by
  show (decode_stream (openLog b).file).2 = (decode_stream b).2
  rw [decode_stream_openLog]

theorem openClose_idem (b : List Nat) : openClose (openClose b) = openClose b := by
  show (openClose b).take (scan (openClose b)) = openClose b
  rw [scan_openClose]
  show (b.take (scan b)).take (scan b) = b.take (scan b)
  rw [List.take_take, Nat.min_self]

theorem openCloseN_fix (n : Nat) (b : List Nat) :
    openCloseN n (openClose b) = openClose b := by
  induction n generalizing b with
  | zero => rfl
  | succ n ih =>
    show openCloseN n (openClose (openClose b)) = openClose b
    rw [openClose_idem, ih]

theorem appendEach_file (P : List (List Nat)) : ∀ l : Log,
    (appendEach l P).file = l.file ++ serialize P := by
  induction P with
  | nil => intro l; simp [appendEach, serialize]
  | cons p P ih =>
    intro l
    show (appendEach (append l p) P).file = l.file ++ serialize (p :: P)
    rw [ih (append l p)]
    simp [append, serialize]

theorem scan_serialize_append (P : List (List Nat)) (g : List Nat)
    (hP : ∀ p ∈ P, p.length < 4294967296) (hg : parseFrame g = none) :
    scan (serialize P ++ g) = (serialize P).length := by
  show (decode_stream (serialize P ++ g)).2 = (serialize P).length
  rw [decode_serialize_append P g hP hg]

theorem openLog_serialize_append_file (P : List (List Nat)) (g : List Nat)
    (hP : ∀ p ∈ P, p.length < 4294967296) (hg : parseFrame g = none) :
    (openLog (serialize P ++ g)).file = serialize P := by
  rw [openLog_file, scan_serialize_append P g hP hg, List.take_left]

theorem read_all_serialize (P : List (List Nat)) (hP : ∀ p ∈ P, p.length < 4294967296) :
    (decode_stream (serialize P)).1 = P := by
  rw [decode_serialize P hP]

end Mimir

namespace Mimir

/-! ## Claim theorems: the append log -/

/-- C1: Round-trip — for every finite sequence of byte payloads `P` (each
payload within the 32-bit length field of the frame format), appending each
payload of `P` to a freshly opened log, closing it, reopening it, and
calling `read_all` yields exactly the payloads of `P`, in order. -/
theorem round_trip (P : List (List Nat)) (hP : ∀ p ∈ P, p.length < 4294967296) :
    read_all (openLog (close (appendEach (openLog []) P))) = P := by
  have hfile : close (appendEach (openLog []) P) = serialize P := by
    show (appendEach (openLog []) P).file = serialize P
    rw [appendEach_file]
    rfl
  rw [hfile, read_all_openLog]
  exact read_all_serialize P hP

theorem round_trip_witness :
    (∀ p ∈ [[1, 2], [3]], List.length p < 4294967296) ∧
    read_all (openLog (close (appendEach (openLog []) [[1, 2], [3]]))) = [[1, 2], [3]] :=
  ⟨by decide, round_trip [[1, 2], [3]] (by decide)⟩

/-- C2: Crash-truncation recovery — a file holding the frames of `P`
followed by trailing bytes that are either garbage not beginning a valid
frame or an incomplete next frame yields exactly `P` via `read_all` after
open, and a subsequent append commits a payload readable alongside `P`. -/
theorem crash_truncation_recovery (P : List (List Nat)) (g r : List Nat)
    (hP : ∀ p ∈ P, p.length < 4294967296) (hr : r.length < 4294967296)
    (hg : parseFrame g = none ∨
      ∃ q t : List Nat, q.length < 4294967296 ∧ g ++ t = encodeFrame q ∧ t ≠ []) :
    read_all (openLog (serialize P ++ g)) = P ∧
    read_all (append (openLog (serialize P ++ g)) r) = P ++ [r] := by
  have hgn : parseFrame g = none := by
    rcases hg with h | ⟨q, t, hq, hgt, htne⟩
    · exact h
    · exact parse_incomplete q g t hq hgt htne
  have hfile := openLog_serialize_append_file P g hP hgn
  constructor
  · rw [read_all_openLog]
    show (decode_stream (serialize P ++ g)).1 = P
    rw [decode_serialize_append P g hP hgn]
  · show (decode_stream (append (openLog (serialize P ++ g)) r).file).1 = P ++ [r]
    have hnew : (append (openLog (serialize P ++ g)) r).file = serialize (P ++ [r]) := by
      show (openLog (serialize P ++ g)).file ++ encodeFrame r = serialize (P ++ [r])
      rw [hfile, serialize_append]
      simp [serialize]
    rw [hnew]
    refine read_all_serialize (P ++ [r]) ?_
    intro x hx
    rcases List.mem_append.mp hx with h | h
    · exact hP x h
    · simp only [List.mem_singleton] at h
      subst h
      exact hr

theorem crash_truncation_recovery_witness :
    parseFrame [9] = none ∧
    (read_all (openLog (serialize [[1]] ++ [9])) = [[1]] ∧
     read_all (append (openLog (serialize [[1]] ++ [9])) [2]) = [[1], [2]]) :=
  ⟨by decide,
   crash_truncation_recovery [[1]] [9] [2] (by decide) (by decide) (Or.inl (by decide))⟩

/-- C3: Atomic-or-absent append — if an append of a non-empty payload `p`
onto a committed file for `P` is interrupted at any byte-granular point of
the frame write (the file ends with an arbitrary front `pre` of the new
frame), the next open's recovery yields either exactly `P` or exactly
`P ++ [p]`; never a partial record, and no committed record is lost. -/
theorem append_atomic_or_absent (P : List (List Nat)) (p pre t : List Nat)
    (hP : ∀ x ∈ P, x.length < 4294967296) (hp : p.length < 4294967296)
    (hpne : p ≠ []) (hsplit : pre ++ t = encodeFrame p) :
    read_all (openLog (serialize P ++ pre)) = P ∨
    read_all (openLog (serialize P ++ pre)) = P ++ [p] := by
  rcases eq_or_ne t [] with rfl | htne
  · right
    have hpre : pre = encodeFrame p := by simpa using hsplit
    subst hpre
    have hser : serialize P ++ encodeFrame p = serialize (P ++ [p]) := by
      rw [serialize_append]
      simp [serialize]
    rw [hser, read_all_openLog]
    refine read_all_serialize (P ++ [p]) ?_
    intro x hx
    rcases List.mem_append.mp hx with h | h
    · exact hP x h
    · simp only [List.mem_singleton] at h
      subst h
      exact hp
  · left
    have hgn := parse_incomplete p pre t hp hsplit htne
    rw [read_all_openLog]
    show (decode_stream (serialize P ++ pre)).1 = P
    rw [decode_serialize_append P pre hP hgn]

theorem append_atomic_or_absent_witness :
    read_all (openLog (serialize [[1]] ++ encodeFrame [2])) = [[1]] ∨
    read_all (openLog (serialize [[1]] ++ encodeFrame [2])) = [[1]] ++ [[2]] :=
  append_atomic_or_absent [[1]] [2] (encodeFrame [2]) [] (by decide) (by decide)
    (by decide) (by decide)

/-- C4: `decode_stream` failure signalling — on any input buffer the
returned offset never exceeds the buffer length, the bytes at that offset
do not begin a complete valid frame (truncated frame and checksum mismatch
alike), everything decoded before the offset is still yielded, and failure
is reported through this return value of the total function, never via an
exception. -/
theorem decode_stream_failure_signalling (b : List Nat) (ps : List (List Nat)) (off : Nat)
    (h : decode_stream b = (ps, off)) :
    off ≤ b.length ∧ parseFrame (b.drop off) = none ∧
    decode_stream (b.take off) = (ps, off) := by
  obtain ⟨h1, h2, h3⟩ := trunc_stable b
  rw [h] at h1 h2 h3
  exact ⟨h1, h3, h2⟩

theorem decode_stream_failure_signalling_witness :
    decode_stream (encodeFrame [1] ++ [7]) = ([[1]], 9) ∧
    (9 ≤ (encodeFrame [1] ++ [7]).length ∧
     parseFrame ((encodeFrame [1] ++ [7]).drop 9) = none ∧
     decode_stream ((encodeFrame [1] ++ [7]).take 9) = ([[1]], 9)) :=
  ⟨by decide, decode_stream_failure_signalling (encodeFrame [1] ++ [7]) [[1]] 9 (by decide)⟩

/-- C5: Empty-file behaviour — scanning an empty file reports
`last_valid_offset = 0`, opening a freshly created empty file and calling
`read_all` yields the empty sequence, and the first append afterwards
commits and is readable. -/
theorem empty_file_behaviour :
    scan [] = 0 ∧ read_all (openLog []) = [] ∧
    ∀ p : List Nat, p.length < 4294967296 → read_all (append (openLog []) p) = [p] := by
  refine ⟨rfl, rfl, ?_⟩
  intro p hp
  show (decode_stream (append (openLog []) p).file).1 = [p]
  have hfile : (append (openLog []) p).file = serialize [p] := by
    show (openLog []).file ++ encodeFrame p = serialize [p]
    simp [serialize]
    rfl
  rw [hfile]
  refine read_all_serialize [p] ?_
  intro x hx
  simp only [List.mem_singleton] at hx
  subst hx
  exact hp

theorem empty_file_behaviour_witness :
    List.length [42] < 4294967296 ∧ read_all (append (openLog []) [42]) = [[42]] :=
  ⟨by decide, empty_file_behaviour.2.2 [42] (by decide)⟩

/-- C6: Idempotent recovery — for every disk contents, n open/close cycles
without appending leave the same `read_all` result as a single open/close
cycle. -/
theorem idempotent_recovery (d : List Nat) (n : Nat) :
    read_all (openLog (openCloseN (n + 1) d)) = read_all (openLog (openCloseN 1 d)) := by
  show read_all (openLog (openCloseN n (openClose d))) = _
  rw [openCloseN_fix]
  rfl

/-- C7: File-growth invariant — the file is created empty on first open,
each append extends it by exactly the bytes of one whole committed frame
(so the prior contents stay a prefix, unmodified in place), and close
writes nothing. -/
theorem file_growth_invariant :
    (openLog []).file = [] ∧
    (∀ (l : Log) (p : List Nat), (append l p).file = l.file ++ encodeFrame p) ∧
    (∀ (l : Log) (p : List Nat), l.file <+: (append l p).file) ∧
    (∀ l : Log, close l = l.file) :=
  ⟨rfl, fun _ _ => rfl, fun _ p => ⟨encodeFrame p, rfl⟩, fun _ => rfl⟩

/-- C8: Incremental append cost — the bytes an append writes to the file
are the frame overhead plus the payload size, independent of the log it is
applied to and hence of the cumulative file length. -/
theorem append_incremental_cost (l : Log) (p : List Nat) :
    appendBytesWritten l p = p.length + 8 ∧
    ∀ l' : Log, appendBytesWritten l p = appendBytesWritten l' p := by
  have h : ∀ m : Log, appendBytesWritten m p = p.length + 8 := by
    intro m
    show (m.file ++ encodeFrame p).length - m.file.length = p.length + 8
    rw [List.length_append, length_encodeFrame]
    omega
  exact ⟨h l, fun l' => by rw [h l, h l']⟩

end Mimir

namespace Setup

/-! ## Claim theorems: setup.py -/

/-- C9: the setup script unconditionally opens and reads `README.rst` from
its own directory before calling `setup`; when that read raises, the
exception propagates, `setup` is never invoked and no package metadata
record is produced. -/
theorem setup_readme_required :
    setup_script none = Except.error ("IOError: README.rst") := rfl

/-- C10: on every run that reaches it, `setup` receives exactly one C
extension module, `mimir.gzlog`, cythonized from the single source
`gzlog/gzlog.pyx` and linked against exactly the library `z`; every other
argument is the same fixed constant on all runs, with only
`long_description` depending on the environment (the README contents). -/
theorem setup_args_fixed (s : String) :
    setup_script (some s) =
      Except.ok
        ⟨"mimir",
         "0.1.dev1",
         "A mini-framework for logging JSON-compatible objects",
         s,
         "https://github.com/bartvm/mimir",
         "Bart van Merriënboer",
         "bart.vanmerrienboer@gmail.com",
         "MIT",
         ["Development Status :: 3 - Alpha",
          "Intended Audience :: Developers",
          "Topic :: Utilities",
          "Topic :: Scientific/Engineering",
          "License :: OSI Approved :: MIT License",
          "Programming Language :: Python :: 2",
          "Programming Language :: Python :: 2.7",
          "Programming Language :: Python :: 3",
          "Programming Language :: Python :: 3.5"],
         "logging machine learning",
         ["mimir"],
         ["Cython"],
         ["pyzmq", "simplejson", "six"],
         cythonize [⟨"mimir.gzlog", ["gzlog/gzlog.pyx"], ["z"]⟩]⟩ := rfl

end Setup
